import Mathlib

/-!
Verification of the Maia chess move-engine core of this repository.

The development shallowly embeds the functions of
`src/hooks/useMaiaChessEngine.ts` (the "FIXED" 18-channel rapid-model
variant: `mirrorFEN`, `encodeBoardState`, `mapEloToCategory`, `moveToUCI`,
`mirrorSquare`, `softmax`, `selectBestMove`, the legacy variant's
`selectBestLegalMove`, and the inference fallback of `getMaiaMove`) and the
per-turn move application of `MaiaChessArena.triggerMaiaMove`.

A FEN string is modelled in its field-split form: the source immediately
splits the string on spaces and the piece placement on `/`, and joins the
pieces back the same way, so the record below holds exactly the data the
source manipulates.  Characters stay `Char`, ranks stay character lists.
-/

/-- A FEN string after the source's `fen.split(' ')` (and the piece
placement after `board.split('/')`): ranks top (rank 8) to bottom, the
side-to-move character, the castling-availability characters, the
en-passant field characters, and the two move counters kept verbatim. -/
structure FEN where
  board : List (List Char)
  turn : Char
  castling : List Char
  enPassant : List Char
  halfmove : List Char
  fullmove : List Char
  deriving DecidableEq, Repr

/-- JavaScript `toLowerCase`/`toUpperCase` case swap exactly as written in
`mirrorFEN`: ASCII uppercase gains 32, ASCII lowercase loses 32, all other
characters pass through. -/
def swapCase (c : Char) : Char :=
  if 'A' ≤ c ∧ c ≤ 'Z' then Char.ofNat (c.toNat + 32)
  else if 'a' ≤ c ∧ c ≤ 'z' then Char.ofNat (c.toNat - 32)
  else c

/-- Castling-rights color swap of `mirrorFEN`: K↔k, Q↔q, others kept. -/
def mirrorCastlingChar (c : Char) : Char :=
  if c = 'K' then 'k'
  else if c = 'Q' then 'q'
  else if c = 'k' then 'K'
  else if c = 'q' then 'Q'
  else c

/-- En-passant reflection of `mirrorFEN`: keep the file character, replace
the rank digit r by 9 - r (`const newRank = 9 - rank`). -/
def mirrorEnPassant (ep : List Char) : List Char :=
  match ep with
  | fc :: rc :: _ => [fc, Char.ofNat (48 + (9 - (rc.toNat - 48)))]
  | other => other

/-- `mirrorFEN` from `useMaiaChessEngine.ts` (lines 758-803): reverse the
rank order, swap every piece's case, swap the side to move, swap the
castling rights and reflect the en-passant rank; the move counters are kept
unchanged. -/
def mirrorFEN (fen : FEN) : FEN :=
  { board := (fen.board.reverse).map (List.map swapCase)
    turn := if fen.turn = 'w' then 'b' else 'w'
    castling :=
      if fen.castling = ['-'] then ['-']
      else
        let m := fen.castling.map mirrorCastlingChar
        if m = [] then ['-'] else m
    enPassant := if fen.enPassant = ['-'] then ['-'] else mirrorEnPassant fen.enPassant
    halfmove := fen.halfmove
    fullmove := fen.fullmove }

/-- The characters a well-formed FEN piece-placement field may contain:
the twelve piece letters and the run-length digits 1..8. -/
def fenBoardChars : List Char :=
  ['P', 'N', 'B', 'R', 'Q', 'K', 'p', 'n', 'b', 'r', 'q', 'k',
   '1', '2', '3', '4', '5', '6', '7', '8']

/-- Starting-position FEN, field-split, used as the concrete witness. -/
def startFEN : FEN :=
  { board :=
      [['r','n','b','q','k','b','n','r'],
       ['p','p','p','p','p','p','p','p'],
       ['8'], ['8'], ['8'], ['8'],
       ['P','P','P','P','P','P','P','P'],
       ['R','N','B','Q','K','B','N','R']]
    turn := 'w'
    castling := ['K','Q','k','q']
    enPassant := ['-']
    halfmove := ['0']
    fullmove := ['1'] }

/-- The band lower bounds 1100, 1200, ..., 1900 visited by the source's
`for (let lower = 1100; lower < 2000; lower += 100)` loop. -/
def eloBands : List Int := [1100, 1200, 1300, 1400, 1500, 1600, 1700, 1800, 1900]

/-- Body of the band loop in `mapEloToCategory`: the first band with
`lower <= elo < lower + 100` yields `(lower - 1100) / 100 + 1`; if no band
matches the source falls through to the default category 5. -/
def eloBandLoop : List Int → Int → Int
  | [], _ => 5
  | lower :: rest, elo =>
    if lower ≤ elo ∧ elo < lower + 100 then (lower - 1100) / 100 + 1
    else eloBandLoop rest elo

/-- `mapEloToCategory` from `useMaiaChessEngine.ts` (lines 731-744). -/
def mapEloToCategory (elo : Int) : Int :=
  if elo < 1100 then 0
  else if 2000 ≤ elo then 10
  else eloBandLoop eloBands elo

/-- The board-plane tensor of the 18-channel encoder: the flat
`Float32Array(18 * 64)` indexed by `channel * 64 + square`.  The values
written by the source are only 0.0 and 1.0, kept here as rationals. -/
abbrev Tensor18 := List ℚ

/-- The zero-initialised `new Float32Array(18 * 64)`. -/
def zeroTensor : Tensor18 := List.replicate (18 * 64) 0

/-- One `data[i] = 1.0` store; like a JavaScript typed array, a store at
an out-of-range index is silently ignored (`List.set` out of range is the
identity). -/
def setOne (d : Tensor18) (i : Nat) : Tensor18 := List.set d i 1

/-- Read entry `i` of the tensor (0 past the end, matching the
zero-extension view used in the statements below). -/
def tget (d : Tensor18) (i : Nat) : ℚ := List.getD d i 0

/-- Piece channel order of the fixed encoder (`pieceTypes` in the source):
white P N B R Q K then black p n b r q k. -/
def pieceTypes : List Char := ['P', 'N', 'B', 'R', 'Q', 'K', 'p', 'n', 'b', 'r', 'q', 'k']

/-- Inner loop of `encodeBoardState` over the characters of one FEN rank
row (`for (const char of rows[rank])`): a digit advances the file counter
by its value, a piece letter found in `pieceTypes` sets the occupancy bit
of channel `pieceTypes.indexOf(char)` at square `row * 8 + file` and then
advances the file by one. -/
def encodeRowChars : List Char → Nat → Nat → Tensor18 → Tensor18
  | [], _, _, d => d
  | c :: cs, row, file, d =>
    if c.isDigit then encodeRowChars cs row (file + (c.toNat - 48)) d
    else
      if pieceTypes.indexOf c < 12 then
        encodeRowChars cs row (file + 1)
          (setOne d (pieceTypes.indexOf c * 64 + (row * 8 + file)))
      else encodeRowChars cs row (file + 1) d

/-- Outer loop of the piece-placement encoding: FEN rank indices 0..7,
each stored at the vertically flipped row `7 - rank`. -/
def encodePieces (rows : List (List Char)) (d : Tensor18) : Tensor18 :=
  (List.range 8).foldl (fun d rank => encodeRowChars (rows.getD rank []) (7 - rank) 0 d) d

/-- Fill one full 64-square channel with ones (the source's `for` loops
writing `data[plane * S + i] = 1.0`). -/
def fillPlane (plane : Nat) (d : Tensor18) : Tensor18 :=
  (List.range 64).foldl (fun d i => setOne d (plane * 64 + i)) d

/-- Channel 12: all ones exactly when white is to move. -/
def turnStage (activeColor : Char) (d : Tensor18) : Tensor18 :=
  if activeColor = 'w' then fillPlane 12 d else d

/-- The `castlingRights` boolean array of the source: presence of K, Q, k,
q in the castling-availability field, in that order. -/
def castlingRightsList (castling : List Char) : List Bool :=
  [castling.contains 'K', castling.contains 'Q', castling.contains 'k',
   castling.contains 'q']

/-- Channels 13-16: one full plane per granted castling right. -/
def castlingStage (castling : List Char) (d : Tensor18) : Tensor18 :=
  (List.range 4).foldl
    (fun d i =>
      if (castlingRightsList castling).getD i false then fillPlane (13 + i) d else d) d

/-- Channel 17: the en-passant target square, vertically flipped like the
piece placement (`row = 7 - rank`). -/
def epStage (enPassant : List Char) (d : Tensor18) : Tensor18 :=
  if enPassant = ['-'] then d
  else
    match enPassant with
    | fc :: rc :: _ =>
        setOne d (17 * 64 + ((7 - (rc.toNat - 49)) * 8 + (fc.toNat - 97)))
    | _ => d

/-- `encodeBoardState` from `useMaiaChessEngine.ts` (lines 822-894), the
fixed 18-channel encoder: piece channels 0-11, turn channel 12, castling
channels 13-16, en-passant channel 17, applied to the zero array in the
source's statement order. -/
def encodeBoardState (fen : FEN) : Tensor18 :=
  epStage fen.enPassant
    (castlingStage fen.castling
      (turnStage fen.turn
        (encodePieces fen.board zeroTensor)))

/-- Channel `c` of a tensor extracted as its 64-entry square list. -/
def plane (d : Tensor18) (c : Nat) : List ℚ :=
  (List.range 64).map (fun sq => tget d (c * 64 + sq))

/-- Rank-reversal of one 8x8 plane: square `row * 8 + file` is read from
row `7 - row`, same file. -/
def rankRev (p : List ℚ) : List ℚ :=
  (List.range 64).map (fun sq => p.getD ((7 - sq / 8) * 8 + sq % 8) 0)

/-- The twelve piece-occupancy planes of a tensor, each as its 64-entry
square list (rows bottom to top, as stored by the encoder). -/
def planesOf (d : Tensor18) : List (List ℚ) :=
  (List.range 12).map (fun c => (d.drop (c * 64)).take 64)

/-- Rank-reversal of one 8x8 plane: the eight rows in reverse order. -/
def rankRevPlane (p : List ℚ) : List ℚ :=
  (((List.range 8).map (fun r => (p.drop (r * 8)).take 8)).reverse).flatten

/-- The piece planes of a tensor after swapping the white and black plane
blocks (channel c maps to channel (c+6) mod 12) and reversing the ranks of
every plane. -/
def colorSwapRankRev (d : Tensor18) : List (List ℚ) :=
  (List.range 12).map (fun c => rankRevPlane ((d.drop ((c + 6) % 12 * 64)).take 64))

/-- A piece placement with no white king at all: only a black king on a8
(`k7/8/8/8/8/8/8/8`). -/
def noKingBoard : List (List Char) :=
  [['k','7'], ['8'], ['8'], ['8'], ['8'], ['8'], ['8'], ['8']]

/-- A malformed position (white has no king), white to move. -/
def noKingFEN : FEN :=
  { board := noKingBoard
    turn := 'w'
    castling := ['-']
    enPassant := ['-']
    halfmove := ['0']
    fullmove := ['1'] }

/-- An even more degenerate position: no pieces at all. -/
def emptyBoardFEN : FEN :=
  { board := [['8'], ['8'], ['8'], ['8'], ['8'], ['8'], ['8'], ['8']]
    turn := 'w'
    castling := ['-']
    enPassant := ['-']
    halfmove := ['0']
    fullmove := ['1'] }

/-- The FEN actually encoded by `getMaiaMove` (lines 589-597): when black
is to move the FEN is mirrored first, otherwise it is passed unchanged
(`const fenToEncode = isBlack ? mirrorFEN(fen) : fen`). -/
def fenToEncode (fen : FEN) : FEN :=
  if fen.turn = 'b' then mirrorFEN fen else fen

/-- A chess.js verbose move as consumed by the selector: from-square and
to-square in algebraic notation (file letter then rank digit), plus an
optional promotion piece letter. -/
structure ChessMove where
  fromSq : List Char
  toSq : List Char
  promotion : Option Char
  deriving DecidableEq, Repr

/-- Placeholder move used only as the default of list reads that the
source guards by construction (`scored[0]`, `top3[...]`). -/
def dummyMove : ChessMove := ⟨[], [], none⟩

/-- `mirrorSquare` (lines 931-936): keep the file letter, flip the rank
digit r to 9 - r (e2 becomes e7). -/
def mirrorSquare (sq : List Char) : List Char :=
  match sq with
  | f :: r :: _ => [f, Char.ofNat (48 + (9 - (r.toNat - 48)))]
  | other => other

/-- `moveToUCI` (lines 907-925): when the board was mirrored for black,
mirror both squares of the move before building the UCI string, and
append the promotion letter when present.  The move object itself is
never changed. -/
def moveToUCI (m : ChessMove) (mirrorForBlack : Bool) : List Char :=
  (if mirrorForBlack then mirrorSquare m.fromSq else m.fromSq) ++
  (if mirrorForBlack then mirrorSquare m.toSq else m.toSq) ++
  (match m.promotion with
   | some p => [p]
   | none => [])

/-- The static move-index table: the source imports `all_moves.json`
(1880 UCI strings mapped to policy indices) and reads it as
`ALL_MOVES[uci]`, `undefined` when absent.  The table is a parameter of
the embedding; every theorem below holds for an arbitrary table and hence
for the bundled one. -/
def MoveTable : Type := List Char → Option Nat

/-- `softmax` (lines 941-946): shift by the maximum, exponentiate, and
normalise by the sum (`reduce((a, b) => a + b, 0)`). -/
noncomputable def softmax (logits : List ℝ) : List ℝ :=
  let maxLogit := logits.foldl max (logits.headD 0)
  let exps := logits.map (fun x => Real.exp (x - maxLogit))
  let sumExps := exps.foldl (· + ·) 0
  exps.map (fun x => x / sumExps)

/-- The per-move policy logit of `selectBestMove` (lines 970-990): look
up the (possibly mirrored) UCI string in the table; a hit inside the
policy vector reads `policyLogits[moveIndex]`, anything else scores the
large negative sentinel -1000. -/
def scoreMoveLogit (table : MoveTable) (policyLogits : List ℝ)
    (isBlackToMove : Bool) (m : ChessMove) : ℝ :=
  match table (moveToUCI m isBlackToMove) with
  | some moveIndex =>
      if moveIndex < policyLogits.length then policyLogits.getD moveIndex 0
      else -1000
  | none => -1000

/-- `selectBestMove` (lines 960-1015): score every legal move, softmax
over the legal subset only, sort by probability descending and return the
first move (none only for an empty move list). -/
noncomputable def selectBestMove (table : MoveTable) (legalMoves : List ChessMove)
    (policyLogits : List ℝ) (isBlackToMove : Bool) : Option ChessMove :=
  if legalMoves = [] then none
  else
    let moveScores := legalMoves.map
      (fun m => (m, scoreMoveLogit table policyLogits isBlackToMove m))
    let probs := softmax (moveScores.map Prod.snd)
    let movesWithProbs := moveScores.zip probs
    let sorted := movesWithProbs.insertionSort (fun a b => b.2 ≤ a.2)
    sorted.head?.map (fun x => x.1.1)

/-- Table and moves used by the concrete softmax witness. -/
def witnessTable : MoveTable :=
  fun u => if u = ['a','2','a','3'] then some 0 else none

/-- The three legacy Maia difficulty levels of the 112-channel variant. -/
inductive LegacyDifficulty where
  | maia1
  | maia5
  | maia9
  deriving DecidableEq, Repr

/-- The difficulty-scaled epsilon of `selectBestLegalMove` (line 454):
0.15 for maia1, 0.08 for maia5, 0.03 for maia9. -/
def skillEpsilon : LegacyDifficulty → ℚ
  | .maia1 => 15 / 100
  | .maia5 => 8 / 100
  | .maia9 => 3 / 100

/-- The scored-and-sorted candidate list of `selectBestLegalMove` (lines
439-445): each legal move scored by `logits[getMoveIndexLc0(mv, game)]`
(the Lc0 index computation stays a parameter here), with
`Number.NEGATIVE_INFINITY` (the bottom element) for an out-of-range
index, sorted by score descending. -/
def rankedMoves (moveIndexOf : ChessMove → Int) (legalMoves : List ChessMove)
    (logits : List ℚ) : List (ChessMove × WithBot ℚ) :=
  (legalMoves.map (fun mv =>
    (mv,
      if 0 ≤ moveIndexOf mv ∧ moveIndexOf mv < (logits.length : Int) then
        ((logits.getD (moveIndexOf mv).toNat 0 : ℚ) : WithBot ℚ)
      else ⊥))).insertionSort (fun a b => b.2 ≤ a.2)

/-- `selectBestLegalMove` (lines 431-461): an empty move list gives null;
with probability epsilon (first random draw r1) and at least three scored
candidates, pick uniformly (second draw r2) among the top three;
otherwise return the top-ranked move. -/
def selectBestLegalMove (moveIndexOf : ChessMove → Int) (legalMoves : List ChessMove)
    (logits : List ℚ) (difficulty : LegacyDifficulty) (r1 r2 : ℚ) : Option ChessMove :=
  if legalMoves = [] then none
  else
    if r1 < skillEpsilon difficulty ∧
        3 ≤ (rankedMoves moveIndexOf legalMoves logits).length then
      some ((((rankedMoves moveIndexOf legalMoves logits).take 3).getD
        (⌊r2 * ((((rankedMoves moveIndexOf legalMoves logits).take 3).length : Nat) : ℚ)⌋).toNat
        (dummyMove, ⊥)).1)
    else some (((rankedMoves moveIndexOf legalMoves logits).headD (dummyMove, ⊥)).1)

/-- The uniform random fallback of the catch block
(`moves[Math.floor(Math.random() * moves.length)]`, lines 646-648), with
the random draw passed explicitly. -/
def randomLegalMove (moves : List ChessMove) (r : ℚ) : Option ChessMove :=
  if moves = [] then none
  else some (moves.getD (⌊r * (moves.length : ℚ)⌋).toNat dummyMove)

/-- `getMaiaMove` (lines 555-650) at its failure boundary: an empty legal
move list returns null before inference is attempted; otherwise a
successful inference hands the policy logits to `selectBestMove`, and any
failure inside the try block (engine unavailable, policy output missing
or malformed) lands in the catch block, which substitutes a uniformly
random legal move. -/
noncomputable def getMaiaMoveResult (table : MoveTable) (legalMoves : List ChessMove)
    (inference : Option (List ℝ)) (isBlackToMove : Bool) (r : ℚ) : Option ChessMove :=
  if legalMoves = [] then none
  else
    match inference with
    | some policyLogits => selectBestMove table legalMoves policyLogits isBlackToMove
    | none => randomLegalMove legalMoves r

/-- What one engine turn of `MaiaChessArena.triggerMaiaMove` does to the
game: either exactly one move is applied to the position, or no move at
all is applied this turn. -/
inductive TurnOutcome where
  | applied (m : ChessMove)
  | skipped
  deriving DecidableEq, Repr

/-- The decision structure of `triggerMaiaMove` (part_009, lines
239-268): when the opening book returns a move, `game.move(bookMove)` is
attempted — the repository's own chess.js declaration types `move()` as
`Move | null`, null for a rejected move — and nothing further happens in
that branch; only when the book returns no move is the neural engine
(`getMaiaMove`) consulted and its move applied through `game.move`.  The
rules collaborator is abstracted as the two apply functions (null result
modelled as none). -/
def triggerMaiaMoveStep (bookMove : Option (List Char))
    (applyBookMove : List Char → Option ChessMove)
    (neuralMove : Option ChessMove)
    (applyNeuralMove : ChessMove → Option ChessMove) : TurnOutcome :=
  match bookMove with
  | some bm =>
      match applyBookMove bm with
      | some m => .applied m
      | none => .skipped
  | none =>
      match neuralMove with
      | some mv =>
          match applyNeuralMove mv with
          | some m => .applied m
          | none => .skipped
      | none => .skipped

theorem swapCase_swapCase_of_mem (c : Char) (h : c ∈ fenBoardChars) :
    swapCase (swapCase c) = c := by
  fin_cases h <;> decide

theorem mirrorCastlingChar_involutive (c : Char) :
    mirrorCastlingChar (mirrorCastlingChar c) = c := by
  unfold mirrorCastlingChar
  split_ifs <;> simp_all

theorem charToNat_ofNat (n : Nat) (h : n < 55296) : (Char.ofNat n).toNat = n := by
  unfold Char.ofNat Char.toNat
  rw [dif_pos (Or.inl h : n.isValidChar)]
  rfl

theorem digit_toNat_bounds (c : Char) (h : c.isDigit) :
    48 ≤ c.toNat ∧ c.toNat ≤ 57 := by
  unfold Char.isDigit at h
  simp only [Bool.and_eq_true, decide_eq_true_eq] at h
  obtain ⟨h0, h1⟩ := h
  exact ⟨h0, h1⟩

theorem mirrorDigitChar (c : Char) (h : c.isDigit) :
    Char.ofNat (48 + (9 - ((Char.ofNat (48 + (9 - (c.toNat - 48)))).toNat - 48))) = c := by
  obtain ⟨hb0, hb1⟩ := digit_toNat_bounds c h
  rw [charToNat_ofNat _ (by omega)]
  rw [(by omega : 48 + (9 - (48 + (9 - (c.toNat - 48)) - 48)) = c.toNat)]
  exact Char.ofNat_toNat c

theorem mirrorEnPassant_mirrorEnPassant (fc rc : Char) (h : rc.isDigit) :
    mirrorEnPassant (mirrorEnPassant [fc, rc]) = [fc, rc] := by
  simp only [mirrorEnPassant]
  rw [mirrorDigitChar rc h]

/-- C1: Position mirroring is an involution: for every well-formed FEN
(piece placement over the FEN alphabet, side to move `w` or `b`, non-empty
castling field, en-passant field either `-` or a file letter followed by a
rank digit), applying `mirrorFEN` twice returns the original FEN exactly. -/
theorem mirrorFEN_involution (fen : FEN)
    (hboard : ∀ rank ∈ fen.board, ∀ c ∈ rank, c ∈ fenBoardChars)
    (hturn : fen.turn = 'w' ∨ fen.turn = 'b')
    (hcast : fen.castling ≠ [])
    (hep : fen.enPassant = ['-'] ∨
      ∃ fc rc, fen.enPassant = [fc, rc] ∧ rc.isDigit) :
    mirrorFEN (mirrorFEN fen) = fen := by
  obtain ⟨board, turn, castling, enPassant, halfmove, fullmove⟩ := fen
  simp only at hboard hturn hcast hep
  simp only [mirrorFEN, FEN.mk.injEq]
  refine ⟨?_, ?_, ?_, ?_, trivial, trivial⟩
  · -- board: reverse and case-swap twice
    simp only [List.map_reverse, List.reverse_reverse, List.map_map]
    refine (List.map_congr_left ?_).trans (List.map_id board)
    intro rank hrank
    show (rank.map swapCase).map swapCase = id rank
    rw [List.map_map]
    refine (List.map_congr_left ?_).trans (List.map_id rank)
    intro c hc
    show swapCase (swapCase c) = id c
    exact swapCase_swapCase_of_mem c (hboard rank hrank c hc)
  · -- turn
    rcases hturn with h | h <;> simp [h]
  · -- castling
    by_cases hdash : castling = ['-']
    · simp [hdash]
    · have hm : castling.map mirrorCastlingChar ≠ [] := by
        simpa using hcast
      have hmd : castling.map mirrorCastlingChar ≠ ['-'] := by
        intro habs
        apply hdash
        rcases castling with _ | ⟨c, rest⟩
        · exact absurd rfl hcast
        · rcases rest with _ | ⟨d, rest2⟩
          · simp only [List.map_cons, List.map_nil] at habs
            have hc : mirrorCastlingChar c = '-' := by
              simpa using habs
            have hcd : c = '-' := by
              revert hc
              unfold mirrorCastlingChar
              split_ifs <;> intro h <;> simp_all
            simp [hcd]
          · simp at habs
      have hm2 : (castling.map mirrorCastlingChar).map mirrorCastlingChar ≠ [] := by
        simpa using hcast
      rw [if_neg hdash, if_neg hm, if_neg hmd, if_neg hm2, List.map_map]
      refine (List.map_congr_left ?_).trans (List.map_id castling)
      intro c _
      exact mirrorCastlingChar_involutive c
  · -- en passant
    rcases hep with h | ⟨fc, rc, h, hdigit⟩
    · simp [h]
    · have h1 : mirrorEnPassant [fc, rc] ≠ ['-'] := by
        simp [mirrorEnPassant]
      rw [h, if_neg (by simp : ([fc, rc] : List Char) ≠ ['-']), if_neg h1]
      exact mirrorEnPassant_mirrorEnPassant fc rc hdigit

/-- C1 witness: the starting position satisfies the well-formedness
hypotheses and mirroring it twice returns it exactly. -/
theorem mirrorFEN_involution_witness : mirrorFEN (mirrorFEN startFEN) = startFEN :=
  mirrorFEN_involution startFEN (by decide) (by decide) (by decide)
    (Or.inl (by decide))

/-- C5: the Elo-to-category mapping sends every rating below 1100 to 0,
every rating at or above 2000 to 10, and every rating in the half-open
band [1100+100k, 1200+100k) (k = 0..8) to k+1; in particular 1099 maps to
0, 1100 to 1, 1999 to 9 and 2000 to 10. -/
theorem mapEloToCategory_spec (elo : Int) (k : Nat) :
    (elo < 1100 → mapEloToCategory elo = 0) ∧
    (2000 ≤ elo → mapEloToCategory elo = 10) ∧
    (k ≤ 8 → 1100 + 100 * (k : Int) ≤ elo → elo < 1200 + 100 * (k : Int) →
      mapEloToCategory elo = (k : Int) + 1) ∧
    mapEloToCategory 1099 = 0 ∧ mapEloToCategory 1100 = 1 ∧
    mapEloToCategory 1999 = 9 ∧ mapEloToCategory 2000 = 10 := by
  refine ⟨?_, ?_, ?_, by decide, by decide, by decide, by decide⟩
  · intro h
    simp [mapEloToCategory, h]
  · intro h
    rw [mapEloToCategory, if_neg (by omega), if_pos h]
  · intro hk h1 h2
    rw [mapEloToCategory, if_neg (by omega), if_neg (by omega)]
    simp only [eloBands, eloBandLoop]
    split_ifs <;> omega

/-- C5 witness: rating 1234 lies in band k = 1 and maps to category 2. -/
theorem mapEloToCategory_spec_witness : mapEloToCategory 1234 = 2 :=
  (mapEloToCategory_spec 1234 1).2.2.1 (by decide) (by decide) (by decide)

theorem setOne_getElem_ne (d : Tensor18) (i j : Nat) (h : i ≠ j) :
    (setOne d i)[j]? = d[j]? :=
  List.getElem?_set_ne h

theorem setOne_length (d : Tensor18) (i : Nat) : (setOne d i).length = d.length :=
  List.length_set d i 1

theorem foldl_getElem_preserve {α : Type} (l : List α) (step : Tensor18 → α → Tensor18)
    (j : Nat) (h : ∀ d a, a ∈ l → (step d a)[j]? = d[j]?) :
    ∀ d : Tensor18, (l.foldl step d)[j]? = d[j]? := by
  induction l with
  | nil => intro d; rfl
  | cons a l ih =>
      intro d
      rw [List.foldl_cons, ih (fun d b hb => h d b (List.mem_cons_of_mem a hb)),
        h d a (List.mem_cons_self a l)]

theorem foldl_length_preserve {α : Type} (l : List α) (step : Tensor18 → α → Tensor18)
    (h : ∀ d a, a ∈ l → (step d a).length = d.length) :
    ∀ d : Tensor18, (l.foldl step d).length = d.length := by
  induction l with
  | nil => intro d; rfl
  | cons a l ih =>
      intro d
      rw [List.foldl_cons, ih (fun d b hb => h d b (List.mem_cons_of_mem a hb)),
        h d a (List.mem_cons_self a l)]

theorem fillPlane_getElem_lt (p : Nat) (d : Tensor18) (j : Nat) (h : j < p * 64) :
    (fillPlane p d)[j]? = d[j]? := by
  refine foldl_getElem_preserve _ _ _ ?_ d
  intro d k hk
  exact setOne_getElem_ne d _ j (by omega)

theorem fillPlane_length (p : Nat) (d : Tensor18) : (fillPlane p d).length = d.length :=
  foldl_length_preserve _ _ (fun d i _ => setOne_length d _) d

theorem turnStage_getElem_lt (t : Char) (d : Tensor18) (j : Nat) (h : j < 768) :
    (turnStage t d)[j]? = d[j]? := by
  unfold turnStage
  split
  · exact fillPlane_getElem_lt 12 d j (by omega)
  · rfl

theorem castlingStage_getElem_lt (castling : List Char) (d : Tensor18) (j : Nat)
    (h : j < 832) : (castlingStage castling d)[j]? = d[j]? := by
  refine foldl_getElem_preserve _ _ _ ?_ d
  intro d i hi
  have hi4 : i < 4 := List.mem_range.mp hi
  split
  · exact fillPlane_getElem_lt (13 + i) d j (by omega)
  · rfl

theorem epStage_getElem_lt (enPassant : List Char) (d : Tensor18) (j : Nat)
    (h : j < 1088) : (epStage enPassant d)[j]? = d[j]? := by
  unfold epStage
  split
  · rfl
  · split
    · exact setOne_getElem_ne d _ j (by omega)
    · rfl

/-- Below the turn channel, the encoded tensor agrees pointwise with the
bare piece-placement stage: the turn, castling and en-passant stages only
write at flat indices 768 and above. -/
theorem encodeBoardState_getElem_lt (fen : FEN) (j : Nat) (h : j < 768) :
    (encodeBoardState fen)[j]? = (encodePieces fen.board zeroTensor)[j]? := by
  unfold encodeBoardState
  rw [epStage_getElem_lt _ _ j (by omega), castlingStage_getElem_lt _ _ j (by omega),
    turnStage_getElem_lt _ _ j h]

theorem encodeBoardState_take768 (fen : FEN) :
    (encodeBoardState fen).take 768 = (encodePieces fen.board zeroTensor).take 768 := by
  refine List.ext_getElem? ?_
  intro n
  rw [List.getElem?_take, List.getElem?_take]
  split
  · exact encodeBoardState_getElem_lt fen n (by omega)
  · rfl

theorem planesOf_take768 (d : Tensor18) : planesOf d = planesOf (d.take 768) := by
  unfold planesOf
  refine List.map_congr_left ?_
  intro c hc
  have hc12 : c < 12 := List.mem_range.mp hc
  rw [List.drop_take, List.take_take]
  congr 1
  omega

theorem colorSwapRankRev_take768 (d : Tensor18) :
    colorSwapRankRev d = colorSwapRankRev (d.take 768) := by
  unfold colorSwapRankRev
  refine List.map_congr_left ?_
  intro c hc
  have hmod : (c + 6) % 12 < 12 := Nat.mod_lt _ (by omega)
  rw [List.drop_take, List.take_take]
  congr 2
  omega

set_option maxRecDepth 10000 in
set_option maxHeartbeats 2000000 in
/-- C2: for the standard starting position, the piece-occupancy planes
(channels 0-11) of the encoded tensor and of the tensor of the mirrored
FEN are exact rank-reversals of one another with the white and black plane
blocks swapped. -/
theorem encode_mirror_start_planes :
    planesOf (encodeBoardState startFEN) =
    colorSwapRankRev (encodeBoardState (mirrorFEN startFEN)) := by
  rw [planesOf_take768, colorSwapRankRev_take768, encodeBoardState_take768,
    encodeBoardState_take768]
  have hb : (mirrorFEN startFEN).board = startFEN.board := by decide
  rw [hb]
  decide

theorem encodeRowChars_length : ∀ (cs : List Char) (row file : Nat) (d : Tensor18),
    (encodeRowChars cs row file d).length = d.length := by
  intro cs
  induction cs with
  | nil => intro row file d; rfl
  | cons c cs ih =>
      intro row file d
      rw [encodeRowChars]
      split
      · exact ih row _ d
      · split
        · rw [ih, setOne_length]
        · exact ih row _ d

theorem encodePieces_length (rows : List (List Char)) (d : Tensor18) :
    (encodePieces rows d).length = d.length :=
  foldl_length_preserve _ _ (fun d r _ => encodeRowChars_length _ _ _ d) d

theorem turnStage_length (t : Char) (d : Tensor18) :
    (turnStage t d).length = d.length := by
  unfold turnStage
  split
  · exact fillPlane_length 12 d
  · rfl

theorem castlingStage_length (castling : List Char) (d : Tensor18) :
    (castlingStage castling d).length = d.length := by
  refine foldl_length_preserve _ _ ?_ d
  intro d i _
  split
  · exact fillPlane_length _ d
  · rfl

theorem epStage_length (enPassant : List Char) (d : Tensor18) :
    (epStage enPassant d).length = d.length := by
  unfold epStage
  split
  · rfl
  · split
    · exact setOne_length _ _
    · rfl

/-- The encoder always returns the full fixed-size tensor: 18 * 64
entries, whatever the input FEN contains. -/
theorem encodeBoardState_length (fen : FEN) :
    (encodeBoardState fen).length = 18 * 64 := by
  unfold encodeBoardState
  rw [epStage_length, castlingStage_length, turnStage_length, encodePieces_length]
  exact List.length_replicate (18 * 64) 0

set_option maxRecDepth 10000 in
/-- C7 counterexample: encoding a position with no king on the board does
not fail: `encodeBoardState` returns an ordinary full-size 18 * 64 tensor
whose two king channels (5 and 11) are entirely zero, the degenerate
tensor the claim says must not be produced. -/
theorem encode_no_kings_returns_degenerate_tensor :
    (encodeBoardState emptyBoardFEN).length = 18 * 64 ∧
    (planesOf (encodeBoardState emptyBoardFEN)).getD 5 [] = List.replicate 64 0 ∧
    (planesOf (encodeBoardState emptyBoardFEN)).getD 11 [] = List.replicate 64 0 := by
  refine ⟨encodeBoardState_length emptyBoardFEN, ?_, ?_⟩ <;>
    rw [planesOf_take768, encodeBoardState_take768] <;> decide

set_option maxRecDepth 10000 in
/-- C7 amended: `encodeBoardState` performs no piece-count validation;
for every position whose piece placement is the white-kingless board
`k7/8/8/8/8/8/8/8` it silently returns the full-size tensor with an
all-zero white-king plane instead of raising an error. -/
theorem encode_missing_king_silently_encodes (fen : FEN)
    (hb : fen.board = noKingBoard) :
    (encodeBoardState fen).length = 18 * 64 ∧
    (planesOf (encodeBoardState fen)).getD 5 [] = List.replicate 64 0 := by
  refine ⟨encodeBoardState_length fen, ?_⟩
  rw [planesOf_take768, encodeBoardState_take768, hb]
  decide

/-- C7 witness: the concrete malformed FEN `k7/8/8/8/8/8/8/8 w - - 0 1`
is encoded to a degenerate tensor without any failure. -/
theorem encode_missing_king_silently_encodes_witness :
    (encodeBoardState noKingFEN).length = 18 * 64 ∧
    (planesOf (encodeBoardState noKingFEN)).getD 5 [] = List.replicate 64 0 :=
  encode_missing_king_silently_encodes noKingFEN rfl

theorem tget_setOne_self (d : Tensor18) (i : Nat) (h : i < d.length) :
    tget (setOne d i) i = 1 := by
  unfold tget setOne
  rw [List.getD_eq_getElem?_getD, List.getElem?_set_self h]
  rfl

theorem foldl_setOne_tget_hit {α : Type} (l : List α) (g : α → Nat) (t : Nat) :
    ∀ d : Tensor18, t < d.length → (∃ a ∈ l, g a = t) →
    tget (l.foldl (fun d a => setOne d (g a)) d) t = 1 := by
  induction l with
  | nil => simp
  | cons a l ih =>
      intro d ht hex
      rw [List.foldl_cons]
      by_cases hin : ∃ b ∈ l, g b = t
      · exact ih (setOne d (g a)) (by rw [setOne_length]; exact ht) hin
      · obtain ⟨b, hb, hgb⟩ := hex
        rcases List.mem_cons.mp hb with rfl | hbl
        · have hpres : (l.foldl (fun d a => setOne d (g a)) (setOne d (g b)))[t]? =
              (setOne d (g b))[t]? := by
            refine foldl_getElem_preserve l _ t ?_ _
            intro d2 c hc
            refine setOne_getElem_ne d2 _ t ?_
            intro habs
            exact hin ⟨c, hc, habs⟩
          unfold tget
          rw [List.getD_eq_getElem?_getD, hpres, ← List.getD_eq_getElem?_getD]
          rw [hgb]
          exact tget_setOne_self d t ht
        · exact absurd ⟨b, hbl, hgb⟩ hin

theorem fillPlane_tget (p : Nat) (d : Tensor18) (sq : Nat) (hsq : sq < 64)
    (hlen : p * 64 + sq < d.length) : tget (fillPlane p d) (p * 64 + sq) = 1 :=
  foldl_setOne_tget_hit (List.range 64) (fun i => p * 64 + i) _ d hlen
    ⟨sq, List.mem_range.mpr hsq, rfl⟩

/-- If white is to move, the turn plane (channel 12) of the encoded
tensor is all ones. -/
theorem turn_plane_all_ones (fen : FEN) (h : fen.turn = 'w') (sq : Nat)
    (hsq : sq < 64) : tget (encodeBoardState fen) (12 * 64 + sq) = 1 := by
  unfold encodeBoardState
  have hlen : (encodePieces fen.board zeroTensor).length = 18 * 64 := by
    rw [encodePieces_length]
    exact List.length_replicate (18 * 64) 0
  have h1 : tget (turnStage fen.turn (encodePieces fen.board zeroTensor))
      (12 * 64 + sq) = 1 := by
    unfold turnStage
    rw [if_pos h]
    exact fillPlane_tget 12 _ sq hsq (by omega)
  have h2 := castlingStage_getElem_lt fen.castling
    (turnStage fen.turn (encodePieces fen.board zeroTensor)) (12 * 64 + sq) (by omega)
  have h3 := epStage_getElem_lt fen.enPassant
    (castlingStage fen.castling (turnStage fen.turn (encodePieces fen.board zeroTensor)))
    (12 * 64 + sq) (by omega)
  unfold tget at h1 ⊢
  rw [List.getD_eq_getElem?_getD, h3, h2, ← List.getD_eq_getElem?_getD]
  exact h1

/-- C10: for every position handed to the encoder by `getMaiaMove` (side
to move `w` or `b`), the side-to-move plane (channel 12) of the tensor
actually encoded is all ones: black-to-move positions are mirrored to
white-to-move before encoding, so the all-zero turn plane is unreachable
at the inference boundary. -/
theorem fenToEncode_turn_plane_all_ones (fen : FEN)
    (hturn : fen.turn = 'w' ∨ fen.turn = 'b') (sq : Nat) (hsq : sq < 64) :
    tget (encodeBoardState (fenToEncode fen)) (12 * 64 + sq) = 1 := by
  rcases hturn with h | h
  · unfold fenToEncode
    rw [if_neg (by rw [h]; decide)]
    exact turn_plane_all_ones fen h sq hsq
  · unfold fenToEncode
    rw [if_pos h]
    refine turn_plane_all_ones (mirrorFEN fen) ?_ sq hsq
    show (if fen.turn = 'w' then 'b' else 'w') = 'w'
    rw [h]
    decide

/-- C10 witness: a black-to-move position (the start board with black to
move and an e3 en-passant field) is mirrored before encoding and its
encoded turn plane carries a one, here checked at square 0. -/
theorem fenToEncode_turn_plane_all_ones_witness :
    tget (encodeBoardState (fenToEncode
      { startFEN with turn := 'b', enPassant := ['e','3'] })) (12 * 64 + 0) = 1 :=
  fenToEncode_turn_plane_all_ones _ (Or.inr rfl) 0 (by omega)

theorem list_sum_map_div (l : List ℝ) (s : ℝ) :
    (l.map (fun x => x / s)).sum = l.sum / s := by
  induction l with
  | nil => simp
  | cons a l ih => simp [ih, add_div]

theorem softmax_length (l : List ℝ) : (softmax l).length = l.length := by
  simp [softmax]

theorem exps_sum_pos (l : List ℝ) (m : ℝ) (h : l ≠ []) :
    0 < (l.map (fun x => Real.exp (x - m))).sum := by
  refine List.sum_pos _ ?_ (by simpa using h)
  intro x hx
  obtain ⟨y, _, rfl⟩ := List.mem_map.mp hx
  exact Real.exp_pos _

theorem softmax_sum_eq_one (l : List ℝ) (h : l ≠ []) : (softmax l).sum = 1 := by
  unfold softmax
  simp only [← List.sum_eq_foldl]
  rw [list_sum_map_div]
  exact div_self (ne_of_gt (exps_sum_pos l _ h))

theorem getD_map_lt {α β : Type} (f : α → β) (l : List α) (i : Nat)
    (h : i < l.length) (d : α) (d2 : β) : (l.map f).getD i d2 = f (l.getD i d) := by
  rw [List.getD_eq_getElem _ _ (by rw [List.length_map]; exact h), List.getElem_map,
    List.getD_eq_getElem _ _ h]

theorem softmax_strict_mono (l : List ℝ) (i j : Nat) (hi : i < l.length)
    (hj : j < l.length) (hne : l ≠ []) (hlt : l.getD i 0 < l.getD j 0) :
    (softmax l).getD i 0 < (softmax l).getD j 0 := by
  have hS : 0 < (l.map (fun x => Real.exp (x - l.foldl max (l.headD 0)))).sum :=
    exps_sum_pos l _ hne
  have hi2 : i < (softmax l).length := by rw [softmax_length]; exact hi
  have hj2 : j < (softmax l).length := by rw [softmax_length]; exact hj
  rw [List.getD_eq_getElem _ _ hi2, List.getD_eq_getElem _ _ hj2]
  rw [List.getD_eq_getElem _ _ hi, List.getD_eq_getElem _ _ hj] at hlt
  unfold softmax
  simp only [← List.sum_eq_foldl, List.getElem_map]
  rw [div_lt_div_iff_of_pos_right hS]
  exact Real.exp_lt_exp.mpr (by linarith)

/-- C3: the selector computes its softmax over the legal-move subset only
(one probability per legal move), the probabilities sum to exactly 1 in
the real-number model, and every sentinel-scored move (UCI string absent
from the move-index table) gets strictly lower probability than every
move found in the table whose policy logit is non-negative. -/
theorem selectBestMove_softmax_props (table : MoveTable) (legalMoves : List ChessMove)
    (policyLogits : List ℝ) (isBlackToMove : Bool) (hne : legalMoves ≠ []) :
    (softmax (legalMoves.map (scoreMoveLogit table policyLogits isBlackToMove))).length
      = legalMoves.length ∧
    (softmax (legalMoves.map (scoreMoveLogit table policyLogits isBlackToMove))).sum = 1 ∧
    (∀ i j, i < legalMoves.length → j < legalMoves.length →
      table (moveToUCI (legalMoves.getD i dummyMove) isBlackToMove) = none →
      (∃ moveIndex,
        table (moveToUCI (legalMoves.getD j dummyMove) isBlackToMove) = some moveIndex ∧
        moveIndex < policyLogits.length ∧ 0 ≤ policyLogits.getD moveIndex 0) →
      (softmax (legalMoves.map (scoreMoveLogit table policyLogits isBlackToMove))).getD i 0 <
      (softmax (legalMoves.map (scoreMoveLogit table policyLogits isBlackToMove))).getD j 0) := by
  refine ⟨by rw [softmax_length, List.length_map], softmax_sum_eq_one _ (by simpa using hne), ?_⟩
  intro i j hi hj hsent hfound
  obtain ⟨moveIndex, hidx, hlen, hnn⟩ := hfound
  refine softmax_strict_mono _ i j (by rw [List.length_map]; exact hi)
    (by rw [List.length_map]; exact hj) (by simpa using hne) ?_
  rw [getD_map_lt _ _ i hi dummyMove 0, getD_map_lt _ _ j hj dummyMove 0]
  unfold scoreMoveLogit
  rw [hsent, hidx]
  show (-1000 : ℝ) < if moveIndex < policyLogits.length
    then policyLogits.getD moveIndex 0 else -1000
  rw [if_pos hlen]
  linarith

/-- C3 witness: with two legal moves a2a3 (in the table, logit 0) and
b2b3 (absent, sentinel), the sentinel move receives strictly lower
probability. -/
theorem selectBestMove_softmax_props_witness :
    (softmax ([(⟨['a','2'],['a','3'],none⟩ : ChessMove), ⟨['b','2'],['b','3'],none⟩].map
      (scoreMoveLogit witnessTable [(0 : ℝ)] false))).getD 1 0 <
    (softmax ([(⟨['a','2'],['a','3'],none⟩ : ChessMove), ⟨['b','2'],['b','3'],none⟩].map
      (scoreMoveLogit witnessTable [(0 : ℝ)] false))).getD 0 0 :=
  (selectBestMove_softmax_props witnessTable _ [(0 : ℝ)] false (by simp)).2.2 1 0
    (by simp) (by simp)
    (by decide)
    ⟨0, by decide, by simp, by simp⟩

theorem selectBestMove_some_mem (table : MoveTable) (legalMoves : List ChessMove)
    (policyLogits : List ℝ) (isBlackToMove : Bool) (hleg : legalMoves ≠ []) :
    ∃ m, selectBestMove table legalMoves policyLogits isBlackToMove = some m ∧
      m ∈ legalMoves := by
  unfold selectBestMove
  rw [if_neg hleg]
  simp only []
  set ms := legalMoves.map
    (fun m => (m, scoreMoveLogit table policyLogits isBlackToMove m)) with hms
  set zipped := ms.zip (softmax (ms.map Prod.snd)) with hzip
  set sorted := zipped.insertionSort (fun a b => b.2 ≤ a.2) with hsorted
  have hlen : sorted.length = legalMoves.length := by
    simp [hsorted, hzip, hms, List.length_insertionSort, List.length_zip, softmax_length]
  have hne : sorted ≠ [] := by
    intro habs
    apply hleg
    rw [← List.length_eq_zero, ← hlen, habs, List.length_nil]
  obtain ⟨x, rest, hx⟩ := List.exists_cons_of_ne_nil hne
  refine ⟨x.1.1, ?_, ?_⟩
  · rw [hx]
    rfl
  · have hmem : x ∈ sorted := by rw [hx]; exact List.mem_cons_self x rest
    have hmem2 : x ∈ zipped := (List.perm_insertionSort _ zipped).mem_iff.mp hmem
    have hmem3 : x.1 ∈ ms := by
      obtain ⟨a, b⟩ := x
      exact (List.of_mem_zip hmem2).1
    rw [hms] at hmem3
    obtain ⟨m, hm, hfst⟩ := List.mem_map.mp hmem3
    rw [← hfst]
    exact hm

/-- C8: the move selector returns none exactly when the legal-move list
is empty, and for a non-empty list it returns one of the original legal
moves (the table lookup may use the rank-reflected UCI string, but the
returned value is the unmirrored move object itself). -/
theorem selectBestMove_none_iff_mem (table : MoveTable) (legalMoves : List ChessMove)
    (policyLogits : List ℝ) (isBlackToMove : Bool) :
    (selectBestMove table legalMoves policyLogits isBlackToMove = none ↔
      legalMoves = []) ∧
    (legalMoves ≠ [] → ∃ m,
      selectBestMove table legalMoves policyLogits isBlackToMove = some m ∧
      m ∈ legalMoves) := by
  by_cases hleg : legalMoves = []
  · subst hleg
    refine ⟨⟨fun _ => rfl, fun _ => ?_⟩, fun habs => absurd rfl habs⟩
    · rw [selectBestMove]
      simp
  · obtain ⟨m, hm, hmem⟩ :=
      selectBestMove_some_mem table legalMoves policyLogits isBlackToMove hleg
    refine ⟨⟨fun hn => ?_, fun h => absurd h hleg⟩, fun _ => ⟨m, hm, hmem⟩⟩
    rw [hn] at hm
    exact absurd hm (by simp)

/-- C8 witness: a singleton legal-move list yields that move back. -/
theorem selectBestMove_none_iff_mem_witness :
    ∃ m, selectBestMove witnessTable [dummyMove] [(0 : ℝ)] true = some m ∧
      m ∈ [dummyMove] :=
  (selectBestMove_none_iff_mem witnessTable [dummyMove] [(0 : ℝ)] true).2 (by simp)

theorem rankedMoves_length (moveIndexOf : ChessMove → Int)
    (legalMoves : List ChessMove) (logits : List ℚ) :
    (rankedMoves moveIndexOf legalMoves logits).length = legalMoves.length := by
  rw [rankedMoves, List.length_insertionSort, List.length_map]

/-- C4: move selection applies skill-scaled randomness.  The epsilon is
0.15 at the weakest level, 0.08 in the middle and 0.03 at the strongest;
whenever the first random draw falls below epsilon (and at least three
candidates exist) the selector returns the entry of the top-3 list picked
uniformly by the second draw (entry i exactly for r2 in [i/3, (i+1)/3)),
and otherwise it returns the rank-1 candidate. -/
theorem selectBestLegalMove_epsilon (moveIndexOf : ChessMove → Int)
    (legalMoves : List ChessMove) (logits : List ℚ) (difficulty : LegacyDifficulty)
    (r1 r2 : ℚ) (h3 : 3 ≤ legalMoves.length) :
    (skillEpsilon .maia1 = 15 / 100 ∧ skillEpsilon .maia5 = 8 / 100 ∧
      skillEpsilon .maia9 = 3 / 100) ∧
    (∀ i : Nat, i < 3 → (i : ℚ) / 3 ≤ r2 → r2 < ((i : ℚ) + 1) / 3 →
      r1 < skillEpsilon difficulty →
      selectBestLegalMove moveIndexOf legalMoves logits difficulty r1 r2 =
        some (((rankedMoves moveIndexOf legalMoves logits).take 3).getD i
          (dummyMove, ⊥)).1) ∧
    (¬ r1 < skillEpsilon difficulty →
      selectBestLegalMove moveIndexOf legalMoves logits difficulty r1 r2 =
        some ((rankedMoves moveIndexOf legalMoves logits).headD (dummyMove, ⊥)).1) := by
  have hleg : legalMoves ≠ [] := by
    intro h
    rw [h] at h3
    simp at h3
  have hslen : (rankedMoves moveIndexOf legalMoves logits).length = legalMoves.length :=
    rankedMoves_length moveIndexOf legalMoves logits
  refine ⟨⟨rfl, rfl, rfl⟩, ?_, ?_⟩
  · intro i hi hlo hhi heps
    unfold selectBestLegalMove
    rw [if_neg hleg, if_pos ⟨heps, by omega⟩]
    have htake : ((rankedMoves moveIndexOf legalMoves logits).take 3).length = 3 := by
      rw [List.length_take]
      omega
    rw [htake]
    simp only [Nat.cast_ofNat]
    have hfloor : ⌊r2 * (3 : ℚ)⌋ = (i : Int) := by
      rw [Int.floor_eq_iff]
      constructor
      · push_cast
        rw [div_le_iff₀ (by norm_num : (0:ℚ) < 3)] at hlo
        linarith
      · push_cast
        rw [lt_div_iff₀ (by norm_num : (0:ℚ) < 3)] at hhi
        linarith
    rw [hfloor, Int.toNat_ofNat]
  · intro heps
    unfold selectBestLegalMove
    rw [if_neg hleg, if_neg (by intro h; exact heps h.1)]

/-- C4 witness: with three legal moves, a first draw below the weakest
epsilon and a second draw in the middle third, the selector returns the
second entry of the top-3 list. -/
theorem selectBestLegalMove_epsilon_witness :
    selectBestLegalMove (fun _ => 0)
      [(⟨['a','2'],['a','3'],none⟩ : ChessMove), ⟨['b','2'],['b','3'],none⟩,
        ⟨['c','2'],['c','3'],none⟩] [] LegacyDifficulty.maia1 (1 / 10) (1 / 2) =
    some (((rankedMoves (fun _ => 0)
      [(⟨['a','2'],['a','3'],none⟩ : ChessMove), ⟨['b','2'],['b','3'],none⟩,
        ⟨['c','2'],['c','3'],none⟩] []).take 3).getD 1 (dummyMove, ⊥)).1 :=
  (selectBestLegalMove_epsilon (fun _ => 0) _ [] LegacyDifficulty.maia1 (1 / 10) (1 / 2)
    (by simp)).2.1 1 (by norm_num) (by norm_num) (by norm_num)
    (by norm_num [skillEpsilon])

/-- C9: when inference fails, the engine recovers locally: it returns
none exactly when no legal move exists, otherwise a member of the current
legal-move list, picked uniformly (index i exactly when the random draw
lies in [i/n, (i+1)/n)), so the opponent still moves. -/
theorem getMaiaMove_inference_failure (table : MoveTable) (legalMoves : List ChessMove)
    (isBlackToMove : Bool) (r : ℚ) (hr1 : r < 1) :
    (getMaiaMoveResult table legalMoves none isBlackToMove r = none ↔
      legalMoves = []) ∧
    (∀ m, getMaiaMoveResult table legalMoves none isBlackToMove r = some m →
      m ∈ legalMoves) ∧
    (∀ i : Nat, i < legalMoves.length →
      (i : ℚ) / (legalMoves.length : ℚ) ≤ r →
      r < ((i : ℚ) + 1) / (legalMoves.length : ℚ) →
      getMaiaMoveResult table legalMoves none isBlackToMove r =
        some (legalMoves.getD i dummyMove)) := by
  by_cases hleg : legalMoves = []
  · subst hleg
    refine ⟨by simp [getMaiaMoveResult], ?_, ?_⟩
    · intro m hm
      rw [getMaiaMoveResult] at hm
      simp at hm
    · intro i hi
      simp at hi
  · have hn : 0 < legalMoves.length := List.length_pos.mpr hleg
    have hidx : (⌊r * (legalMoves.length : ℚ)⌋).toNat < legalMoves.length := by
      have hflt : ⌊r * (legalMoves.length : ℚ)⌋ < (legalMoves.length : Int) := by
        rw [Int.floor_lt]
        have hq : (0 : ℚ) < (legalMoves.length : ℚ) := by exact_mod_cast hn
        push_cast
        nlinarith [mul_pos (by linarith : (0 : ℚ) < 1 - r) hq]
      omega
    refine ⟨?_, ?_, ?_⟩
    · constructor
      · intro habs
        rw [getMaiaMoveResult, if_neg hleg] at habs
        rw [randomLegalMove, if_neg hleg] at habs
        exact absurd habs (by simp)
      · intro h
        exact absurd h hleg
    · intro m hm
      rw [getMaiaMoveResult, if_neg hleg] at hm
      rw [randomLegalMove, if_neg hleg] at hm
      have hm2 : legalMoves.getD (⌊r * (legalMoves.length : ℚ)⌋).toNat dummyMove = m :=
        Option.some.inj hm
      rw [List.getD_eq_getElem _ _ hidx] at hm2
      rw [← hm2]
      exact List.getElem_mem hidx
    · intro i hi hlo hhi
      rw [getMaiaMoveResult, if_neg hleg, randomLegalMove, if_neg hleg]
      have hfloor : ⌊r * (legalMoves.length : ℚ)⌋ = (i : Int) := by
        have hq : (0 : ℚ) < (legalMoves.length : ℚ) := by
          push_cast
          exact_mod_cast hn
        rw [Int.floor_eq_iff]
        constructor
        · push_cast
          rw [div_le_iff₀ hq] at hlo
          linarith
        · push_cast
          rw [lt_div_iff₀ hq] at hhi
          linarith
      rw [hfloor, Int.toNat_ofNat]

/-- C9 witness: with two legal moves and a failed inference, the draw
r = 1/2 lands in the second half and returns the second move. -/
theorem getMaiaMove_inference_failure_witness :
    getMaiaMoveResult witnessTable
      [(⟨['a','2'],['a','3'],none⟩ : ChessMove), ⟨['b','2'],['b','3'],none⟩] none
      false (1 / 2) =
    some ([(⟨['a','2'],['a','3'],none⟩ : ChessMove),
      ⟨['b','2'],['b','3'],none⟩].getD 1 dummyMove) :=
  (getMaiaMove_inference_failure witnessTable _ false (1 / 2)
    (by norm_num)).2.2 1 (by norm_num) (by norm_num) (by norm_num)

/-- C6 counterexample: a concrete turn in which the opening-book move is
not legal (the rules library rejects it) while the neural path would have
produced a playable move: the engine skips its move for the turn instead
of falling back to the neural selection path. -/
theorem triggerMaiaMove_illegal_book_counterexample :
    triggerMaiaMoveStep (some ['c','7','c','5']) (fun _ => none)
      (some dummyMove) some = TurnOutcome.skipped ∧
    TurnOutcome.skipped ≠ TurnOutcome.applied dummyMove := by
  exact ⟨rfl, by simp⟩

/-- C6 amended: `triggerMaiaMove` does attempt the book move through the
rules library before keeping it (an illegal book move never mutates the
position), but on rejection it does not fall back to the neural path: the
engine simply makes no move that turn, whatever move the neural engine
would have produced. -/
theorem triggerMaiaMove_illegal_book_skips (bm : List Char)
    (applyBookMove : List Char → Option ChessMove) (neuralMove : Option ChessMove)
    (applyNeuralMove : ChessMove → Option ChessMove)
    (hIllegal : applyBookMove bm = none) :
    triggerMaiaMoveStep (some bm) applyBookMove neuralMove applyNeuralMove =
      TurnOutcome.skipped := by
  show (match applyBookMove bm with
        | some m => TurnOutcome.applied m
        | none => TurnOutcome.skipped) = TurnOutcome.skipped
  rw [hIllegal]

/-- C6 witness: the amended behaviour at a concrete rejected book move. -/
theorem triggerMaiaMove_illegal_book_skips_witness :
    triggerMaiaMoveStep (some ['d','7','d','6']) (fun _ => none)
      (some dummyMove) some = TurnOutcome.skipped :=
  triggerMaiaMove_illegal_book_skips ['d','7','d','6'] (fun _ => none)
    (some dummyMove) some rfl
